import Mathlib

/-!
Verification development for the deepagents-fileserver filesystem access layer.

The definitions below are a shallow embedding of the two backend implementations
in the repository:

* fileserver/server.py        (namespace Server below)
* fileserver/fastapi_server.py (namespace Fastapi below)

Modelling conventions:

* A filesystem path is its list of segments from the filesystem root; the
  backend root directory (self.cwd) is such a list.  The filesystem is a finite
  association list from file paths to their string contents, plus the list of
  existing directories.  The model has no symbolic links, so Path.resolve()
  is the lexical canonicalization normJoin, and it assumes OS calls succeed
  (no OSError / permission branches).
* File contents are Lean Strings (Unicode, as Python str); the UTF-8 byte
  round trip through open() is the identity on the decoded text.
* Python str.splitlines is modelled for newline-terminated lines; the further
  exotic line terminators Python also splits on do not occur in any input of
  the claims.
* re.compile is modelled by an abstract compilation result
  (Except error-message line-matcher); regex matching itself is an opaque
  predicate on lines, which is all the claims under study quantify over.
* time.time() values are modelled as integers; only their ordered additive
  structure is used by the rate limiter.
-/

/-- Split a character list on the path separator; cur is the reversed current
segment. -/
def splitSlashAux : List Char → List Char → List String
  | cur, [] => [String.mk cur.reverse]
  | cur, c :: rest =>
    if c == '/' then String.mk cur.reverse :: splitSlashAux [] rest
    else splitSlashAux (c :: cur) rest

/-- Does the string start with the path separator (Path.is_absolute on POSIX)? -/
def startsWithSlash (s : String) : Bool :=
  match s.data with
  | [] => false
  | c :: _ => c == '/'

/-- Segment view of a pathlib path: split on the separator and drop empty
segments and single-dot segments, keeping dot-dot segments, as
pathlib.PurePosixPath does. -/
def parsePath (s : String) : List String :=
  (splitSlashAux [] s.data).filter (fun seg => !(seg == "") && !(seg == "."))

/-- Lexical canonicalization of a join, as Path.resolve() computes it on a
symlink-free tree: a dot-dot segment pops the last segment, and the root is its
own parent. -/
def normJoin : List String → List String → List String
  | acc, [] => acc
  | acc, seg :: rest =>
    if seg == ".." then normJoin acc.dropLast rest else normJoin (acc ++ [seg]) rest

/-- In-memory filesystem: contents of regular files, and the set of existing
directories. -/
structure FS where
  files : List (List String × String)
  dirs : List (List String)
deriving DecidableEq

/-- Content of the regular file at a path, if one exists there. -/
def lookupFile (fs : FS) (p : List String) : Option String :=
  Option.map (fun e => e.2) (fs.files.find? (fun e => e.1 == p))

/-- Path.is_dir() in the model. -/
def isDir (fs : FS) (p : List String) : Bool := fs.dirs.contains p

/-- Path.exists() in the model: a regular file or a directory lives there. -/
def fsExists (fs : FS) (p : List String) : Bool := (lookupFile fs p).isSome || isDir fs p

/-- Replace the content stored for path p (the re-open for writing performed by
edit on an existing file). -/
def writeBack (fs : FS) (p : List String) (content : String) : FS :=
  { files := fs.files.map (fun e => if e.1 == p then (p, content) else e), dirs := fs.dirs }

/-- Whitespace characters recognised by Python str.strip() (ASCII range). -/
def isPySpace (c : Char) : Bool :=
  c == ' ' || c == '\t' || c == '\n' || c == '\r' || c == '\x0B' || c == '\x0C'

/-- Python "not content.strip()": the content is empty or all whitespace. -/
def isBlank (s : String) : Bool := s.data.all isPySpace

/-- Helper for splitlines: cur is the reversed current line. -/
def splitlinesAux : List Char → List Char → List (List Char)
  | cur, [] => if cur.isEmpty then [] else [cur.reverse]
  | cur, c :: rest =>
    if c == '\n' then cur.reverse :: splitlinesAux [] rest else splitlinesAux (c :: cur) rest

/-- Python str.splitlines restricted to newline terminators: a trailing
newline does not produce a final empty line, and an empty string has no lines. -/
def splitlines (s : String) : List String := (splitlinesAux [] s.data).map (fun l => String.mk l)

/-- Python sep.join. -/
def pyJoin (sep : String) : List String → String
  | [] => ""
  | [x] => x
  | x :: y :: ys => x ++ sep ++ pyJoin sep (y :: ys)

/-- Normalize one Python slice index against a list length: negative indices
count from the end and clamp at zero; non-negative ones clamp at the length. -/
def pyNorm (len : ℕ) (i : ℤ) : ℕ :=
  if i < 0 then ((len : ℤ) + i).toNat else min i.toNat len

/-- Python list slicing l[a:b] with possibly negative bounds. -/
def pySlice {α : Type} (l : List α) (a b : ℤ) : List α :=
  (l.drop (pyNorm l.length a)).take (pyNorm l.length b - pyNorm l.length a)

/-- The Python format f-string with a 5-wide decimal field: right-align the
decimal representation in spaces, to a minimum width of 5. -/
def padNum (i : ℤ) : String :=
  String.mk (List.replicate (5 - (toString i).length) ' ') ++ toString i

/-- Body of FilesystemBackend.read in fileserver/server.py once the file
content has been obtained: empty-content sentinel, offset bound check, slice,
and line-number formatting. -/
def formatContent (content : String) (offset limit : ℤ) : String :=
  if isBlank content then "File is empty"
  else if ((splitlines content).length : ℤ) ≤ offset then
    "Error: Line offset " ++ toString offset ++ " exceeds file length ("
      ++ toString (splitlines content).length ++ " lines)"
  else
    pyJoin ("\n") ((pySlice (splitlines content) offset
        (min (offset + limit) ((splitlines content).length : ℤ))).enum.map
      (fun q => padNum (offset + 1 + (q.1 : ℤ)) ++ " | " ++ q.2))

/-- Result value of FilesystemBackend.write. -/
structure WriteResultM where
  error : Option String
  path : Option String
deriving DecidableEq

/-- Result value of FilesystemBackend.edit. -/
structure EditResultM where
  error : Option String
  path : Option String
  occurrences : Option ℕ
deriving DecidableEq

/-- One grep match: file path (as the backend renders it), 1-based line
number, and the text of the matching line. -/
structure GrepMatchM where
  path : String
  line : ℕ
  text : String
deriving DecidableEq

/-- Fuel-indexed scanner behind countOccL; the fuel dominates the input length
so that the recursion is structural (and hence evaluates by reduction). -/
def countOccF (old : List Char) : ℕ → List Char → ℕ
  | _, [] => 0
  | 0, _ :: _ => 0
  | fuel + 1, c :: rest =>
    if old ≠ [] ∧ old <+: c :: rest then countOccF old fuel (rest.drop (old.length - 1)) + 1
    else countOccF old fuel rest

/-- Python str.count for a nonempty pattern: number of leftmost non-overlapping
occurrences.  (The model leaves the empty pattern, rejected upstream by the
request validator, out of scope: it returns 0 where Python returns len+1.) -/
def countOccL (old s : List Char) : ℕ := countOccF old s.length s

/-- Fuel-indexed scanner behind replaceAllL. -/
def replaceAllF (old new : List Char) : ℕ → List Char → List Char
  | _, [] => []
  | 0, s => s
  | fuel + 1, c :: rest =>
    if old ≠ [] ∧ old <+: c :: rest then
      new ++ replaceAllF old new fuel (rest.drop (old.length - 1))
    else c :: replaceAllF old new fuel rest

/-- Python str.replace(old, new) for a nonempty pattern: replace every leftmost
non-overlapping occurrence. -/
def replaceAllL (old new s : List Char) : List Char := replaceAllF old new s.length s

/-- Python str.replace(old, new, 1) for a nonempty pattern: replace the
leftmost occurrence only. -/
def replaceFirstL (old new : List Char) : List Char → List Char
  | [] => []
  | c :: rest =>
    if old ≠ [] ∧ old <+: c :: rest then new ++ rest.drop (old.length - 1)
    else c :: replaceFirstL old new rest

/-- Prepend a character to the first chunk of a chunk list. -/
def consHead (c : Char) : List (List Char) → List (List Char)
  | [] => [[c]]
  | seg :: segs => (c :: seg) :: segs

/-- Fuel-indexed scanner behind splitOnL. -/
def splitOnF (old : List Char) : ℕ → List Char → List (List Char)
  | _, [] => [[]]
  | 0, s => [s]
  | fuel + 1, c :: rest =>
    if old ≠ [] ∧ old <+: c :: rest then [] :: splitOnF old fuel (rest.drop (old.length - 1))
    else consHead c (splitOnF old fuel rest)

/-- Split on the leftmost non-overlapping occurrences of a nonempty pattern:
the chunks between consecutive occurrences, in order. -/
def splitOnL (old s : List Char) : List (List Char) := splitOnF old s.length s

/-- Interleave a separator between chunks (list-level sep.join). -/
def intercalateL (sep : List Char) : List (List Char) → List Char
  | [] => []
  | [x] => x
  | x :: y :: ys => x ++ sep ++ intercalateL sep (y :: ys)

/-- Python "path or dot": None and the empty string both fall back to the
current directory. -/
def orDot (p : Option String) : String :=
  match p with
  | none => "."
  | some s => if s == "" then "." else s

/-- Name (final segment) of a file path, as Path.name. -/
def fileName (p : List String) : String := p.getLastD ""

/-- str() of an absolute pathlib path. -/
def absString (p : List String) : String := "/" ++ pyJoin ("/") p

/-- str(p.relative_to(cwd)) for cwd a prefix of p. -/
def relString (cwd p : List String) : String := pyJoin ("/") (p.drop cwd.length)

/-- Scan the lines of one file, keeping the 1-based line numbers and texts of
the lines on which the compiled pattern finds a match. -/
def grepFileLines (rex : String → Bool) (content : String) : List (ℕ × String) :=
  (splitlines content).enum.filterMap
    (fun q => if rex q.2 then some (q.1 + 1, q.2) else none)

/-- Common body of the recursive grep walk of both backends: the regular files
strictly under root (rglob), the extra per-file keep check (trivial in
server.py, the relative_to containment check in fastapi_server.py), the
name-only glob filter, the file size ceiling, and per-line matching; render
turns the file path into the reported path string. -/
def grepWalk (fs : FS) (root : List String) (glob : Option (String → Bool)) (maxBytes : ℕ)
    (keep : List String → Bool) (render : List String → String) (rex : String → Bool) :
    List GrepMatchM :=
  (fs.files.filter (fun e =>
      (decide (root <+: e.1) && !(e.1 == root))
      && keep e.1
      && (match glob with | none => true | some g => g (fileName e.1))
      && decide (e.2.utf8ByteSize ≤ maxBytes))).flatMap
    (fun e => (grepFileLines rex e.2).map
      (fun q => { path := render e.1, line := q.1, text := q.2 }))

namespace Server

/-- FilesystemBackend._resolve_path of fileserver/server.py: an absolute key is
returned as given, with no canonicalization and no containment check; a
relative key is joined to the root and canonicalized.  There is no failure
case. -/
def resolve_path (cwd : List String) (key : String) : List String :=
  if startsWithSlash key then parsePath key else normJoin cwd (parsePath key)

/-- FilesystemBackend.write of fileserver/server.py: refuse if the target
exists; otherwise create the missing ancestor directories and the file. -/
def write (fs : FS) (cwd : List String) (file_path content : String) : WriteResultM × FS :=
  let rp := resolve_path cwd file_path
  if fsExists fs rp then
    ({ error := some ("Cannot write to " ++ file_path
          ++ " because it already exists. Read and then make an edit, or write to a new path."),
       path := none }, fs)
  else
    ({ error := none, path := some file_path },
     { files := (rp, content) :: fs.files,
       dirs := (List.range rp.length).map (fun k => rp.take k) ++ fs.dirs })

/-- FilesystemBackend.read of fileserver/server.py. -/
def read (fs : FS) (cwd : List String) (file_path : String) (offset limit : ℤ) : String :=
  match lookupFile fs (resolve_path cwd file_path) with
  | none => "Error: File '" ++ file_path ++ "' not found"
  | some content => formatContent content offset limit

/-- FilesystemBackend.edit of fileserver/server.py: literal substring
replacement, first occurrence or all occurrences. -/
def edit (fs : FS) (cwd : List String) (file_path old_string new_string : String)
    (replace_all : Bool) : EditResultM × FS :=
  match lookupFile fs (resolve_path cwd file_path) with
  | none =>
    ({ error := some ("Error: File '" ++ file_path ++ "' not found"),
       path := none, occurrences := none }, fs)
  | some content =>
    if old_string.data <:+: content.data then
      if replace_all then
        ({ error := none, path := some file_path,
           occurrences := some (countOccL old_string.data content.data) },
         writeBack fs (resolve_path cwd file_path)
           (String.mk (replaceAllL old_string.data new_string.data content.data)))
      else
        ({ error := none, path := some file_path, occurrences := some 1 },
         writeBack fs (resolve_path cwd file_path)
           (String.mk (replaceFirstL old_string.data new_string.data content.data)))
    else
      ({ error := some ("String '" ++ String.mk (old_string.data.take 50)
            ++ "...' not found in file"),
         path := none, occurrences := none }, fs)

/-- FilesystemBackend.grep_raw of fileserver/server.py.  The regex compilation
outcome is the compiled argument; file paths in the result are rendered with
str(fp), which is absolute. -/
def grep_raw (fs : FS) (cwd : List String) (maxBytes : ℕ)
    (compiled : Except String (String → Bool)) (path : Option String)
    (glob : Option (String → Bool)) : Sum String (List GrepMatchM) :=
  match compiled with
  | .error e => Sum.inl ("Invalid regex pattern: " ++ e)
  | .ok rex =>
    if !(fsExists fs (resolve_path cwd (orDot path))) then Sum.inr []
    else
      Sum.inr (grepWalk fs
        (if isDir fs (resolve_path cwd (orDot path)) then resolve_path cwd (orDot path)
         else (resolve_path cwd (orDot path)).dropLast)
        glob maxBytes (fun _ => true) absString rex)

end Server

namespace Fastapi

/-- FilesystemBackend._resolve_path of fileserver/fastapi_server.py: leading
slashes are stripped so every key is root-relative, the join is canonicalized,
and resolved.relative_to(cwd) must succeed; none models the raised
ValueError("Path traversal detected"). -/
def resolve_path (cwd : List String) (key : String) : Option (List String) :=
  let r := normJoin cwd (parsePath key)
  if cwd <+: r then some r else none

/-- FilesystemBackend.grep_raw of fileserver/fastapi_server.py: as the plain
server version, but a resolver failure yields an empty result, files outside
the root are skipped mid-walk, and result paths are rendered relative to the
root. -/
def grep_raw (fs : FS) (cwd : List String) (maxBytes : ℕ)
    (compiled : Except String (String → Bool)) (path : Option String)
    (glob : Option (String → Bool)) : Sum String (List GrepMatchM) :=
  match compiled with
  | .error e => Sum.inl ("Invalid regex pattern: " ++ e)
  | .ok rex =>
    match resolve_path cwd (orDot path) with
    | none => Sum.inr []
    | some base =>
      if !(fsExists fs base) then Sum.inr []
      else
        Sum.inr (grepWalk fs (if isDir fs base then base else base.dropLast)
          glob maxBytes (fun p => decide (cwd <+: p)) (relString cwd) rex)

end Fastapi

/-- Evict the timestamps that have left the trailing window: keep t exactly
when now - t < window, as the list comprehension in RateLimiter.is_allowed. -/
def evictWindow (window now : ℤ) (ts : List ℤ) : List ℤ :=
  ts.filter (fun t => decide (now - t < window))

/-- Core of RateLimiter.is_allowed of fileserver/fastapi_server.py for one
client window: evict, reject without recording when the window is full,
otherwise record now and accept. -/
def is_allowed_core (max_requests : ℕ) (window : ℤ) (ts : List ℤ) (now : ℤ) : Bool × List ℤ :=
  if max_requests ≤ (evictWindow window now ts).length then (false, evictWindow window now ts)
  else (true, evictWindow window now ts ++ [now])

/-- RateLimiter state: configuration plus the per-client defaultdict of
request timestamps (absent clients map to the empty list). -/
structure RateLimiterState where
  max_requests : ℕ
  window_seconds : ℤ
  requests : String → List ℤ

/-- RateLimiter.is_allowed of fileserver/fastapi_server.py (and the identical
RateLimiter.check_rate_limit of fileserver/server_fastapi.py): the client's
window is updated in place, other clients are untouched. -/
def is_allowed (rl : RateLimiterState) (client_id : String) (now : ℤ) : Bool × RateLimiterState :=
  ((is_allowed_core rl.max_requests rl.window_seconds (rl.requests client_id) now).1,
   { rl with requests := (Function.update rl.requests client_id
       (is_allowed_core rl.max_requests rl.window_seconds (rl.requests client_id) now).2) })

/-- Run a sequence of admission checks for one client at the given times,
returning the decisions in order and the final stored window. -/
def runLimiter (max_requests : ℕ) (window : ℤ) : List ℤ → List ℤ → List Bool × List ℤ
  | ts, [] => ([], ts)
  | ts, now :: rest =>
    ((is_allowed_core max_requests window ts now).1
        :: (runLimiter max_requests window (is_allowed_core max_requests window ts now).2 rest).1,
     (runLimiter max_requests window (is_allowed_core max_requests window ts now).2 rest).2)

theorem normJoin_no_dotdot (segs : List String) (hdd : ".." ∉ segs) :
    ∀ acc, normJoin acc segs = acc ++ segs := by
  induction segs with
  | nil => intro acc; simp [normJoin]
  | cons seg rest ih =>
    intro acc
    have h1 : ¬ seg = ".." := fun h => hdd (by simp [h])
    have h2 : ".." ∉ rest := fun h => hdd (List.mem_cons_of_mem _ h)
    rw [normJoin, if_neg (by simpa using h1), ih h2]
    simp

/-- C1 (amended): the FastAPI backend resolver only ever returns the root or a
descendant of the root; whenever the canonicalized join of the key escapes the
root (for instance through dot-dot segments), it fails with the path-traversal
ValueError instead of returning a path, independently of whether the target
exists; and a key without dot-dot segments resolves to the plain join.  (The
plain server.py resolver has no such guarantee; see the counterexample.) -/
theorem c1_fastapi_resolver_sandboxed (cwd : List String) (key : String) :
    (∀ p, Fastapi.resolve_path cwd key = some p → cwd <+: p)
    ∧ (¬ cwd <+: normJoin cwd (parsePath key) → Fastapi.resolve_path cwd key = none)
    ∧ (".." ∉ parsePath key → Fastapi.resolve_path cwd key = some (cwd ++ parsePath key)) := by
  refine ⟨?_, ?_, ?_⟩
  · intro p hp
    unfold Fastapi.resolve_path at hp
    by_cases h : cwd <+: normJoin cwd (parsePath key)
    · simp only [if_pos h] at hp
      cases hp
      exact h
    · simp [if_neg h] at hp
  · intro h
    unfold Fastapi.resolve_path
    simp [if_neg h]
  · intro h
    unfold Fastapi.resolve_path
    rw [normJoin_no_dotdot _ h]
    simp

/-- Witness for C1 at concrete inputs: an escaping key is rejected, a plain
key resolves under the root. -/
theorem c1_witness :
    Fastapi.resolve_path ["home", "data"] ("../secret") = none
    ∧ Fastapi.resolve_path ["home", "data"] ("a/b.txt") = some ["home", "data", "a", "b.txt"] := by
  constructor
  · exact (c1_fastapi_resolver_sandboxed ["home", "data"] ("../secret")).2.1 (by decide)
  · exact (c1_fastapi_resolver_sandboxed ["home", "data"] ("a/b.txt")).2.2 (by decide)

/-- Counterexample to C1 as stated: the server.py resolver, one of the two
resolvers the claim covers, resolves a dot-dot key to a path outside the root
and returns it without any error. -/
theorem c1_counterexample :
    Server.resolve_path ["home", "data"] ("../secret") = ["home", "secret"]
    ∧ ¬ (["home", "data"] <+: ["home", "secret"]) := by
  constructor
  · decide
  · decide

/-- C2: write to an existing target fails with the already-exists error and
leaves the filesystem (in particular the existing content) untouched; write to
a fresh target reports no error, returns the virtual path, stores exactly the
given content, and creates every missing ancestor directory of the target. -/
theorem c2_write_create_only (fs : FS) (cwd : List String) (fp content : String) :
    (fsExists fs (Server.resolve_path cwd fp) = true →
      (Server.write fs cwd fp content).1.error.isSome = true
      ∧ (Server.write fs cwd fp content).1.path = none
      ∧ (Server.write fs cwd fp content).2 = fs)
    ∧ (fsExists fs (Server.resolve_path cwd fp) = false →
      (Server.write fs cwd fp content).1.error = none
      ∧ (Server.write fs cwd fp content).1.path = some fp
      ∧ lookupFile (Server.write fs cwd fp content).2 (Server.resolve_path cwd fp) = some content
      ∧ ∀ k, k < (Server.resolve_path cwd fp).length →
          (Server.resolve_path cwd fp).take k ∈ (Server.write fs cwd fp content).2.dirs) := by
  constructor
  · intro h
    simp [Server.write, h]
  · intro h
    refine ⟨by simp [Server.write, h], by simp [Server.write, h], ?_, ?_⟩
    · simp [Server.write, h, lookupFile, List.find?]
    · intro k hk
      simp only [Server.write, h, Bool.false_eq_true, if_false]
      simp only [List.mem_append, List.mem_map, List.mem_range]
      exact Or.inl ⟨k, hk, rfl⟩

/-- Witness for C2: both branches at concrete inputs. -/
theorem c2_witness :
    (Server.write ⟨[(["data", "f.txt"], "old")], [[], ["data"]]⟩ ["data"] "f.txt" "new").2
        = ⟨[(["data", "f.txt"], "old")], [[], ["data"]]⟩
    ∧ lookupFile (Server.write ⟨[], [[], ["data"]]⟩ ["data"] "a/b.txt" "hi").2
        (Server.resolve_path ["data"] "a/b.txt") = some "hi" := by
  constructor
  · exact ((c2_write_create_only ⟨[(["data", "f.txt"], "old")], [[], ["data"]]⟩
      ["data"] "f.txt" "new").1 (by decide)).2.2
  · exact ((c2_write_create_only ⟨[], [[], ["data"]]⟩ ["data"] "a/b.txt" "hi").2
      (by decide)).2.2.1

/-- C4 (amended): writing a fresh path stores the given text byte-for-byte,
and the immediately following read returns that stored text rendered through
the line-numbering formatter (not the raw text itself). -/
theorem c4_write_read_roundtrip (fs : FS) (cwd : List String) (fp s : String)
    (h : fsExists fs (Server.resolve_path cwd fp) = false) :
    lookupFile (Server.write fs cwd fp s).2 (Server.resolve_path cwd fp) = some s
    ∧ Server.read (Server.write fs cwd fp s).2 cwd fp 0 2000 = formatContent s 0 2000 := by
  have h1 : lookupFile (Server.write fs cwd fp s).2 (Server.resolve_path cwd fp) = some s := by
    simp [Server.write, h, lookupFile, List.find?]
  refine ⟨h1, ?_⟩
  simp only [Server.read]
  rw [h1]

/-- Witness for C4 on multi-byte UTF-8 content. -/
theorem c4_witness :
    lookupFile (Server.write ⟨[], [[], ["data"]]⟩ ["data"] "n.txt" "héllo\nω").2
        (Server.resolve_path ["data"] "n.txt") = some "héllo\nω" :=
  (c4_write_read_roundtrip ⟨[], [[], ["data"]]⟩ ["data"] "n.txt" "héllo\nω" (by decide)).1

/-- Counterexample to C4 as stated: read after write returns the
line-numbered rendering, which is not byte-for-byte identical to the written
content. -/
theorem c4_counterexample :
    Server.read (Server.write ⟨[], [[], ["data"]]⟩ ["data"] "f.txt" "hi").2 ["data"] "f.txt" 0 2000
        = "    1 | hi"
    ∧ ("    1 | hi" : String) ≠ "hi" := by
  constructor
  · decide
  · decide

theorem pySlice_nonneg_take {α : Type} (l : List α) (offset limit : ℤ)
    (h0 : 0 ≤ offset) (hlt : offset < (l.length : ℤ)) (hl : 0 ≤ limit) :
    pySlice l offset (min (offset + limit) (l.length : ℤ))
      = (l.drop offset.toNat).take limit.toNat := by
  unfold pySlice pyNorm
  have hoffNat : offset.toNat ≤ l.length := by omega
  by_cases hc : offset + limit ≤ (l.length : ℤ)
  · rw [min_eq_left hc, if_neg (by omega), if_neg (by omega)]
    rw [min_eq_left (by omega : (offset + limit).toNat ≤ l.length), min_eq_left hoffNat]
    congr 1
    omega
  · rw [min_eq_right (by omega : (l.length : ℤ) ≤ offset + limit)]
    rw [if_neg (by omega), if_neg (by omega)]
    rw [Int.toNat_natCast, min_self, min_eq_left hoffNat]
    rw [List.take_of_length_le (by rw [List.length_drop]),
      List.take_of_length_le (by rw [List.length_drop]; omega)]

/-- C6 (amended): on a file whose content is not all whitespace, with a
non-negative offset below the line count and a non-negative limit, read
returns exactly the lines with indices in the interval from offset of length
limit, each prefixed by its 1-based line number right-aligned in spaces to a
minimum width of five characters followed by the separator, joined by
newlines. -/
theorem c6_read_line_numbering (fs : FS) (cwd : List String) (fp content : String)
    (offset limit : ℤ)
    (hfile : lookupFile fs (Server.resolve_path cwd fp) = some content)
    (hblank : isBlank content = false)
    (hoff : 0 ≤ offset) (hlt : offset < ((splitlines content).length : ℤ)) (hlim : 0 ≤ limit) :
    Server.read fs cwd fp offset limit
      = pyJoin ("\n") ((((splitlines content).drop offset.toNat).take limit.toNat).enum.map
          (fun q => padNum (offset + 1 + (q.1 : ℤ)) ++ " | " ++ q.2)) := by
  have hread : Server.read fs cwd fp offset limit = formatContent content offset limit := by
    simp only [Server.read]
    rw [hfile]
  rw [hread]
  unfold formatContent
  rw [if_neg (by simp [hblank]), if_neg (by omega)]
  rw [pySlice_nonneg_take _ _ _ hoff hlt hlim]

/-- Witness for C6: the scenario from the specification, a one-line file
containing hi. -/
theorem c6_witness :
    Server.read ⟨[(["data", "a", "b", "c.txt"], "hi")],
        [[], ["data"], ["data", "a"], ["data", "a", "b"]]⟩ ["data"] "a/b/c.txt" 0 2000
      = "    1 | hi" :=
  (c6_read_line_numbering ⟨[(["data", "a", "b", "c.txt"], "hi")],
      [[], ["data"], ["data", "a"], ["data", "a", "b"]]⟩ ["data"] "a/b/c.txt" "hi" 0 2000
    (by decide) (by decide) (by decide) (by decide) (by decide)).trans (by decide)

/-- Counterexample to C6 as stated: a non-empty file consisting of one space
is a one-line file, yet read with offset 0 returns the empty-file sentinel
rather than the numbered line. -/
theorem c6_counterexample :
    Server.read ⟨[(["data", "w.txt"], " ")], [[], ["data"]]⟩ ["data"] "w.txt" 0 2000
        = "File is empty"
    ∧ ("File is empty" : String) ≠ "    1 |  " := by
  constructor
  · decide
  · decide

theorem data_append_head (s t : String) (c : Char) (h : s.data.head? = some c) :
    (s ++ t).data.head? = some c := by
  rw [String.data_append]
  cases hs : s.data with
  | nil => rw [hs] at h; simp at h
  | cons a l =>
    rw [hs] at h
    simp only [List.head?] at h
    simp [h]

theorem padNum_data_head (i : ℤ) (h : i ≤ 0) :
    (padNum i).data.head? = some ' ' ∨ (padNum i).data.head? = some '-' := by
  by_cases h5 : 5 - (toString i).length = 0
  · right
    rcases i with m | m
    · have h2 : (m : ℤ) ≤ 0 := h
      have hm : m = 0 := by omega
      subst hm
      exact absurd h5 (by decide)
    · have hrepr : toString (Int.negSucc m) = "-" ++ Nat.repr (m + 1) := rfl
      unfold padNum
      rw [h5, hrepr]
      simp [String.data_append]
  · left
    unfold padNum
    rcases hk : 5 - (toString i).length with _ | k
    · exact absurd hk h5
    · simp [String.data_append, List.replicate_succ]

theorem pyJoin_cons_head (x : String) (xs : List String) (c : Char)
    (h : x.data.head? = some c) : (pyJoin ("\n") (x :: xs)).data.head? = some c := by
  cases xs with
  | nil => simpa [pyJoin] using h
  | cons y ys =>
    simp only [pyJoin]
    exact data_append_head _ _ _ (data_append_head _ _ _ h)

/-- A joined block of numbered lines with a non-positive first number never
equals a string that starts with a capital E. -/
theorem pyJoin_numbered_ne (i : ℤ) (hi : i ≤ 0) (z : String) (rest : List String)
    (err : String) (herr : err.data.head? = some 'E') :
    pyJoin ("\n") ((padNum i ++ " | " ++ z) :: rest) ≠ err := by
  intro hcontra
  have hE : (' ' : Char) ≠ 'E' ∧ ('-' : Char) ≠ 'E' := by decide
  rcases padNum_data_head i hi with hpad | hpad
  · have hx := data_append_head _ z _ (data_append_head (padNum i) (" | ") _ hpad)
    have hjoin := pyJoin_cons_head _ rest _ hx
    rw [hcontra, herr] at hjoin
    exact hE.1 (Option.some.inj hjoin).symm
  · have hx := data_append_head _ z _ (data_append_head (padNum i) (" | ") _ hpad)
    have hjoin := pyJoin_cons_head _ rest _ hx
    rw [hcontra, herr] at hjoin
    exact hE.2 (Option.some.inj hjoin).symm

theorem pySlice_neg_drop {α : Type} (l : List α) (a : ℤ) (ha : a < 0) :
    pySlice l a (l.length : ℤ) = l.drop (((l.length : ℤ) + a).toNat) := by
  unfold pySlice pyNorm
  rw [if_pos ha, if_neg (by omega)]
  rw [Int.toNat_natCast, min_self]
  exact List.take_of_length_le (by rw [List.length_drop])

/-- C10: on a non-blank file, a negative offset does not trigger the
offset-exceeds-length error; the slice follows Python negative-index
semantics, selecting lines counted from the end of the file, and the emitted
line numbers start at offset plus one (zero or negative numbers included).
Stated for offsets within one file length, with a limit large enough to reach
the end of the file (as the default limit 2000 is for any such file). -/
theorem c10_read_negative_offset (fs : FS) (cwd : List String) (fp content : String)
    (offset limit : ℤ)
    (hfile : lookupFile fs (Server.resolve_path cwd fp) = some content)
    (hblank : isBlank content = false)
    (hneg : offset < 0)
    (hge : -(((splitlines content).length : ℤ)) ≤ offset)
    (hlim : ((splitlines content).length : ℤ) ≤ offset + limit) :
    Server.read fs cwd fp offset limit
      = pyJoin ("\n") ((((splitlines content).drop
            ((((splitlines content).length : ℤ) + offset).toNat)).enum).map
          (fun q => padNum (offset + 1 + (q.1 : ℤ)) ++ " | " ++ q.2))
    ∧ Server.read fs cwd fp offset limit
        ≠ "Error: Line offset " ++ toString offset ++ " exceeds file length ("
            ++ toString (splitlines content).length ++ " lines)" := by
  have hread : Server.read fs cwd fp offset limit = formatContent content offset limit := by
    simp only [Server.read]
    rw [hfile]
  have heq : Server.read fs cwd fp offset limit
      = pyJoin ("\n") ((((splitlines content).drop
            ((((splitlines content).length : ℤ) + offset).toNat)).enum).map
          (fun q => padNum (offset + 1 + (q.1 : ℤ)) ++ " | " ++ q.2)) := by
    rw [hread]
    unfold formatContent
    rw [if_neg (by simp [hblank]), if_neg (by omega)]
    rw [min_eq_right hlim, pySlice_neg_drop _ _ hneg]
  refine ⟨heq, ?_⟩
  rw [heq]
  have hk : (((splitlines content).length : ℤ) + offset).toNat < (splitlines content).length := by
    omega
  obtain ⟨z, zs, hz⟩ : ∃ z zs,
      (splitlines content).drop ((((splitlines content).length : ℤ) + offset).toNat)
        = z :: zs := by
    cases hd : (splitlines content).drop ((((splitlines content).length : ℤ) + offset).toNat) with
    | nil =>
      have hlen := congrArg List.length hd
      rw [List.length_drop] at hlen
      simp at hlen
      omega
    | cons z zs => exact ⟨z, zs, rfl⟩
  rw [hz]
  simp only [List.enum_cons, List.map_cons]
  apply pyJoin_numbered_ne
  · push_cast
    omega
  · exact data_append_head _ _ _ (data_append_head _ _ _ (data_append_head _ _ _ rfl))

/-- Witness for C10: last two lines of a three-line file at offset minus two,
numbered minus one and zero. -/
theorem c10_witness :
    Server.read ⟨[(["data", "t.txt"], "a\nb\nc")], [[], ["data"]]⟩ ["data"] "t.txt" (-2) 2000
        = "   -1 | b\n    0 | c" :=
  ((c10_read_negative_offset ⟨[(["data", "t.txt"], "a\nb\nc")], [[], ["data"]]⟩ ["data"]
      "t.txt" "a\nb\nc" (-2) 2000 (by decide) (by decide) (by decide) (by decide)
      (by decide)).1).trans (by decide)

/-- Every match produced by the grep walk comes from a file of the filesystem
that passed the keep check, and its reported path is the rendering of that
file's path. -/
theorem grepWalk_path_shape (fs : FS) (root : List String) (glob : Option (String → Bool))
    (maxBytes : ℕ) (keep : List String → Bool) (render : List String → String)
    (rex : String → Bool) :
    ∀ m ∈ grepWalk fs root glob maxBytes keep render rex,
      ∃ e, e ∈ fs.files ∧ keep e.1 = true ∧ m.path = render e.1 := by
  intro m hm
  unfold grepWalk at hm
  rw [List.mem_flatMap] at hm
  obtain ⟨e, he, hme⟩ := hm
  rw [List.mem_filter] at he
  obtain ⟨hef, hcond⟩ := he
  rw [List.mem_map] at hme
  obtain ⟨q, _, hmq⟩ := hme
  simp only [Bool.and_eq_true] at hcond
  exact ⟨e, hef, hcond.1.1.2, by rw [← hmq]⟩

/-- C7 (amended): every file path in a successful FastAPI-backend grep result
is expressed relative to the root (it is the rendering of a matched file lying
under the root, with the root segments dropped), whatever the base path
argument was.  The plain server.py backend reports absolute paths instead; see
the counterexample. -/
theorem c7_fastapi_grep_paths_relative (fs : FS) (cwd : List String) (maxBytes : ℕ)
    (rex : String → Bool) (path : Option String) (glob : Option (String → Bool))
    (l : List GrepMatchM)
    (h : Fastapi.grep_raw fs cwd maxBytes (Except.ok rex) path glob = Sum.inr l) :
    ∀ m ∈ l, ∃ e, e ∈ fs.files ∧ cwd <+: e.1 ∧ m.path = relString cwd e.1 := by
  intro m hm
  unfold Fastapi.grep_raw at h
  rcases hres : Fastapi.resolve_path cwd (orDot path) with _ | base
  · rw [hres] at h
    cases h
    simp at hm
  · rw [hres] at h
    by_cases hex : fsExists fs base
    · simp only [hex, Bool.not_true, Bool.false_eq_true, if_false] at h
      cases h
      obtain ⟨e, hef, hkeep, hpath⟩ := grepWalk_path_shape _ _ _ _ _ _ _ m hm
      rw [decide_eq_true_eq] at hkeep
      exact ⟨e, hef, hkeep, hpath⟩
    · simp only [hex] at h
      cases h
      simp at hm

/-- Witness for C7 at a concrete filesystem: the one reported path is the
file's root-relative path. -/
theorem c7_witness :
    ∃ e, e ∈ (⟨[(["data", "sub", "f.txt"], "x")], [[], ["data"], ["data", "sub"]]⟩ : FS).files
      ∧ ["data"] <+: e.1
      ∧ (GrepMatchM.mk "sub/f.txt" 1 "x").path = relString ["data"] e.1 := by
  have h := c7_fastapi_grep_paths_relative
    ⟨[(["data", "sub", "f.txt"], "x")], [[], ["data"], ["data", "sub"]]⟩ ["data"] 10485760
    (fun l => l == "x") none none [GrepMatchM.mk "sub/f.txt" 1 "x"] (by decide)
  exact h (GrepMatchM.mk "sub/f.txt" 1 "x") (by decide)

/-- Counterexample to C7 as stated: the server.py backend, one of the two
implementations the claim covers, reports the matched file with an absolute
path rather than a path relative to the root. -/
theorem c7_counterexample :
    Server.grep_raw ⟨[(["data", "sub", "f.txt"], "x")], [[], ["data"], ["data", "sub"]]⟩
        ["data"] 10485760 (Except.ok (fun l => l == "x")) none none
      = Sum.inr [GrepMatchM.mk "/data/sub/f.txt" 1 "x"]
    ∧ ("/data/sub/f.txt" : String) ≠ "sub/f.txt" := by
  constructor
  · decide
  · decide

/-- C8: with an invalid pattern, grep returns the regex error before any
filesystem access: the result is this error for every filesystem state, so it
does not depend on the filesystem at all; with a valid pattern and a
nonexistent base path, grep returns an empty match list, not an error. -/
theorem c8_grep_compiles_first (fs fs2 : FS) (cwd : List String) (maxBytes : ℕ) (e : String)
    (path : Option String) (glob : Option (String → Bool)) (rex : String → Bool)
    (hbase : fsExists fs (Server.resolve_path cwd (orDot path)) = false) :
    Server.grep_raw fs cwd maxBytes (Except.error e) path glob
        = Sum.inl ("Invalid regex pattern: " ++ e)
    ∧ Server.grep_raw fs cwd maxBytes (Except.error e) path glob
        = Server.grep_raw fs2 cwd maxBytes (Except.error e) path glob
    ∧ Server.grep_raw fs cwd maxBytes (Except.ok rex) path glob = Sum.inr [] := by
  refine ⟨rfl, rfl, ?_⟩
  unfold Server.grep_raw
  simp [hbase]

/-- Witness for C8: a concrete invalid pattern outcome and a concrete
missing-base outcome. -/
theorem c8_witness :
    Server.grep_raw ⟨[(["data", "f.txt"], "x")], [[], ["data"]]⟩ ["data"] 10485760
        (Except.error "missing ], unterminated subpattern at position 1") (some "nope") none
      = Sum.inl ("Invalid regex pattern: " ++ "missing ], unterminated subpattern at position 1")
    ∧ Server.grep_raw ⟨[(["data", "f.txt"], "x")], [[], ["data"]]⟩ ["data"] 10485760
        (Except.ok (fun l => l == "x")) (some "nope") none = Sum.inr [] := by
  have h := c8_grep_compiles_first ⟨[(["data", "f.txt"], "x")], [[], ["data"]]⟩
    ⟨[], []⟩ ["data"] 10485760 "missing ], unterminated subpattern at position 1"
    (some "nope") none (fun l => l == "x") (by decide)
  exact ⟨h.1, h.2.2⟩

/-- Processing a burst of calls whose times all lie within one window length
above t0, starting from a stored window of timestamps at least t0: no eviction
happens, the first max-minus-stored calls are admitted and all later ones are
rejected, and exactly the admitted times are appended to the stored window. -/
theorem runLimiter_burst (maxr : ℕ) (window : ℤ) (t0 : ℤ) :
    ∀ (pending acc : List ℤ),
      (∀ t ∈ acc, t0 ≤ t) →
      (∀ t ∈ pending, t0 ≤ t ∧ t - t0 < window) →
      (runLimiter maxr window acc pending).1
          = (List.range pending.length).map (fun i => decide (acc.length + i < maxr))
      ∧ (runLimiter maxr window acc pending).2 = acc ++ pending.take (maxr - acc.length) := by
  intro pending
  induction pending with
  | nil => intro acc _ _; simp [runLimiter]
  | cons now rest ih =>
    intro acc hacc hpend
    have hnow := hpend now (by simp)
    have hkeep : evictWindow window now acc = acc := by
      rw [evictWindow, List.filter_eq_self]
      intro t ht
      rw [decide_eq_true_eq]
      have := hacc t ht
      omega
    have hpend2 : ∀ t ∈ rest, t0 ≤ t ∧ t - t0 < window :=
      fun t ht => hpend t (List.mem_cons_of_mem _ ht)
    simp only [List.length_cons]
    rw [List.range_succ_eq_map, List.map_cons, List.map_map]
    by_cases hc : maxr ≤ acc.length
    · have hcore : is_allowed_core maxr window acc now = (false, acc) := by
        unfold is_allowed_core
        rw [hkeep, if_pos hc]
      obtain ⟨ih1, ih2⟩ := ih acc hacc hpend2
      have hall : ∀ i ∈ List.range rest.length,
          ((fun i => decide (acc.length + i < maxr)) ∘ Nat.succ) i
            = (fun i => decide (acc.length + i < maxr)) i := by
        intro i _
        simp only [Function.comp]
        rw [decide_eq_false (by omega), decide_eq_false (by omega)]
      constructor
      · simp only [runLimiter, hcore]
        rw [ih1, List.map_congr_left hall]
        congr 1
        rw [decide_eq_false (by omega)]
      · simp only [runLimiter, hcore]
        rw [ih2]
        have hz : maxr - acc.length = 0 := by omega
        rw [hz, List.take_zero, List.take_zero]
    · have hcore : is_allowed_core maxr window acc now = (true, acc ++ [now]) := by
        unfold is_allowed_core
        rw [hkeep, if_neg hc]
      have hacc2 : ∀ t ∈ acc ++ [now], t0 ≤ t := by
        intro t ht
        rcases List.mem_append.mp ht with h | h
        · exact hacc t h
        · simp at h
          subst h
          exact hnow.1
      obtain ⟨ih1, ih2⟩ := ih (acc ++ [now]) hacc2 hpend2
      have hlen : (acc ++ [now]).length = acc.length + 1 := by simp
      have hall : ∀ i ∈ List.range rest.length,
          ((fun i => decide (acc.length + i < maxr)) ∘ Nat.succ) i
            = (fun i => decide ((acc ++ [now]).length + i < maxr)) i := by
        intro i _
        simp only [Function.comp, hlen]
        rw [show acc.length + (i + 1) = acc.length + 1 + i from by omega]
      constructor
      · simp only [runLimiter, hcore]
        rw [ih1, List.map_congr_left hall]
        congr 1
        rw [decide_eq_true (by omega : acc.length + 0 < maxr)]
      · simp only [runLimiter, hcore]
        rw [ih2, hlen]
        have hsplit : maxr - acc.length = (maxr - (acc.length + 1)) + 1 := by omega
        rw [hsplit, List.take_succ_cons, List.append_assoc, List.singleton_append]

/-- C5: for a burst of admission checks for one client whose times all lie
within one window length of the first call, starting from the empty stored
window: precisely the first max-requests calls are admitted and every later
call of the burst is rejected; rejected attempts are not recorded, so the
stored window afterwards holds exactly the admitted timestamps; each check
first evicts the timestamps that have left the trailing window (a no-op
during the burst); and a further check performed once the whole burst has
aged past the window is admitted again (whenever max-requests is positive). -/
theorem c5_limiter_sliding_window (maxr : ℕ) (window : ℤ) (t0 : ℤ) (rest : List ℤ) (u : ℤ)
    (hwin : ∀ t ∈ t0 :: rest, t0 ≤ t ∧ t - t0 < window)
    (hu : ∀ t ∈ t0 :: rest, window ≤ u - t) :
    (runLimiter maxr window [] (t0 :: rest)).1
        = (List.range (t0 :: rest).length).map (fun i => decide (i < maxr))
    ∧ (runLimiter maxr window [] (t0 :: rest)).2 = (t0 :: rest).take maxr
    ∧ (is_allowed_core maxr window (runLimiter maxr window [] (t0 :: rest)).2 u).1
        = decide (0 < maxr) := by
  obtain ⟨h1, h2⟩ := runLimiter_burst maxr window t0 (t0 :: rest) [] (by simp) hwin
  have h2' : (runLimiter maxr window [] (t0 :: rest)).2 = (t0 :: rest).take maxr := by
    rw [h2]
    simp
  refine ⟨?_, h2', ?_⟩
  · rw [h1]
    simp
  · rw [h2']
    have hkeep : evictWindow window u ((t0 :: rest).take maxr) = [] := by
      rw [evictWindow, List.filter_eq_nil_iff]
      intro t ht
      have := hu t (List.mem_of_mem_take ht)
      simp
      omega
    unfold is_allowed_core
    rw [hkeep]
    by_cases hm : maxr = 0
    · subst hm
      simp
    · rw [if_neg (by simp; omega)]
      simp only []
      rw [decide_eq_true (by omega : 0 < maxr)]

/-- Witness for C5: limit two per ten time units; of three calls in a burst
the first two are admitted and the third rejected and unrecorded, and a call
one window later is admitted again. -/
theorem c5_witness :
    (runLimiter 2 10 [] [100, 101, 102]).1 = [true, true, false]
    ∧ (runLimiter 2 10 [] [100, 101, 102]).2 = [100, 101]
    ∧ (is_allowed_core 2 10 (runLimiter 2 10 [] [100, 101, 102]).2 112).1 = true := by
  have h := c5_limiter_sliding_window 2 10 100 [101, 102] 112 (by decide) (by decide)
  exact ⟨h.1.trans (by decide), h.2.1.trans (by decide), h.2.2.trans (by decide)⟩

/-- C9: an admission check on a client whose stored window is sorted, within
the size bound, and whose timestamps all precede the current time, leaves
that window sorted, within the size bound, and bounded by the current time —
so, the clock being monotone, by induction from the initially empty window
these invariants hold after every call — and leaves every other client's
window untouched. -/
theorem c9_limiter_window_invariant (rl : RateLimiterState) (client_id : String) (now : ℤ)
    (hsort : (rl.requests client_id).Sorted (· ≤ ·))
    (hlen : (rl.requests client_id).length ≤ rl.max_requests)
    (hbound : ∀ t ∈ rl.requests client_id, t ≤ now) :
    ((is_allowed rl client_id now).2.requests client_id).Sorted (· ≤ ·)
    ∧ ((is_allowed rl client_id now).2.requests client_id).length ≤ rl.max_requests
    ∧ (∀ t ∈ (is_allowed rl client_id now).2.requests client_id, t ≤ now)
    ∧ (∀ c, c ≠ client_id → (is_allowed rl client_id now).2.requests c = rl.requests c) := by
  have hks : (evictWindow rl.window_seconds now (rl.requests client_id)).Sorted (· ≤ ·) :=
    hsort.filter _
  have hkb : ∀ t ∈ evictWindow rl.window_seconds now (rl.requests client_id), t ≤ now := by
    intro t ht
    exact hbound t (List.mem_of_mem_filter ht)
  have hkl : (evictWindow rl.window_seconds now (rl.requests client_id)).length
      ≤ (rl.requests client_id).length := List.length_filter_le _ _
  unfold is_allowed is_allowed_core
  by_cases hc : rl.max_requests
      ≤ (evictWindow rl.window_seconds now (rl.requests client_id)).length
  · rw [if_pos hc]
    simp only [Function.update_same]
    refine ⟨hks, le_trans hkl hlen, hkb, ?_⟩
    intro c hcne
    simp [Function.update_noteq hcne]
  · rw [if_neg hc]
    simp only [Function.update_same]
    refine ⟨?_, ?_, ?_, ?_⟩
    · refine List.pairwise_append.mpr ⟨hks, List.pairwise_singleton _ _, ?_⟩
      intro x hx y hy
      simp at hy
      subst hy
      exact hkb x hx
    · rw [List.length_append]
      simp
      omega
    · intro t ht
      rcases List.mem_append.mp ht with h | h
      · exact hkb t h
      · simp at h
        subst h
        exact le_refl _
    · intro c hcne
      simp [Function.update_noteq hcne]

/-- Witness for C9: one admission check starting from the empty window. -/
theorem c9_witness :
    ((is_allowed ⟨2, 10, fun _ => []⟩ "alice" 5).2.requests "alice").Sorted (· ≤ ·)
    ∧ ((is_allowed ⟨2, 10, fun _ => []⟩ "alice" 5).2.requests "alice").length ≤ 2
    ∧ (∀ t ∈ (is_allowed ⟨2, 10, fun _ => []⟩ "alice" 5).2.requests "alice", t ≤ 5)
    ∧ (∀ c, c ≠ "alice" → (is_allowed ⟨2, 10, fun _ => []⟩ "alice" 5).2.requests c
        = (fun _ => ([] : List ℤ)) c) :=
  c9_limiter_window_invariant ⟨2, 10, fun _ => []⟩ "alice" 5 (by simp) (by simp) (by simp)

theorem prefix_decomp (old : List Char) (hold : old ≠ []) (c : Char) (rest : List Char)
    (h : old <+: c :: rest) : c :: rest = old ++ rest.drop (old.length - 1) := by
  obtain ⟨t, ht⟩ := h
  have hlen : old.length - 1 + 1 = old.length := by
    cases old with
    | nil => exact absurd rfl hold
    | cons a l => simp
  have h1 : rest.drop (old.length - 1) = (c :: rest).drop old.length := by
    conv_rhs => rw [← hlen]
    rw [List.drop_succ_cons]
  rw [h1, ← ht, List.drop_left]

theorem consHead_ne_nil (c : Char) (L : List (List Char)) : consHead c L ≠ [] := by
  cases L <;> simp [consHead]

theorem splitOnF_ne_nil (old : List Char) : ∀ fuel s, splitOnF old fuel s ≠ [] := by
  intro fuel s
  match fuel, s with
  | _, [] => simp [splitOnF]
  | 0, c :: rest => simp [splitOnF]
  | fuel + 1, c :: rest =>
    unfold splitOnF
    by_cases h : old ≠ [] ∧ old <+: c :: rest
    · rw [if_pos h]
      simp
    · rw [if_neg h]
      exact consHead_ne_nil _ _

theorem splitOnF_reconstruct (old : List Char) (hold : old ≠ []) :
    ∀ fuel s, s.length ≤ fuel → intercalateL old (splitOnF old fuel s) = s := by
  intro fuel
  induction fuel with
  | zero =>
    intro s hs
    have hz : s = [] := List.length_eq_zero.mp (Nat.le_zero.mp hs)
    subst hz
    simp [splitOnF, intercalateL]
  | succ fuel ih =>
    intro s hs
    cases s with
    | nil => simp [splitOnF, intercalateL]
    | cons c rest =>
      simp only [List.length_cons, Nat.add_le_add_iff_right] at hs
      unfold splitOnF
      by_cases h : old ≠ [] ∧ old <+: c :: rest
      · rw [if_pos h]
        have hrec : (rest.drop (old.length - 1)).length ≤ fuel := by
          rw [List.length_drop]
          omega
        have hr := ih (rest.drop (old.length - 1)) hrec
        cases hL : splitOnF old fuel (rest.drop (old.length - 1)) with
        | nil => exact absurd hL (splitOnF_ne_nil old fuel _)
        | cons x xs =>
          rw [hL] at hr
          simp only [intercalateL]
          rw [hr, List.nil_append]
          exact (prefix_decomp old hold c rest h.2).symm
      · rw [if_neg h]
        have hr := ih rest hs
        cases hL : splitOnF old fuel rest with
        | nil => exact absurd hL (splitOnF_ne_nil old fuel rest)
        | cons x xs =>
          rw [hL] at hr
          cases xs with
          | nil =>
            simp only [consHead, intercalateL] at hr ⊢
            rw [hr]
          | cons y ys =>
            simp only [consHead, intercalateL] at hr ⊢
            simp only [List.append_assoc] at hr ⊢
            rw [List.cons_append, hr]

theorem replaceAllF_intercalate (old new : List Char) (_hold : old ≠ []) :
    ∀ fuel s, s.length ≤ fuel →
      replaceAllF old new fuel s = intercalateL new (splitOnF old fuel s) := by
  intro fuel
  induction fuel with
  | zero =>
    intro s hs
    have hz : s = [] := List.length_eq_zero.mp (Nat.le_zero.mp hs)
    subst hz
    simp [replaceAllF, splitOnF, intercalateL]
  | succ fuel ih =>
    intro s hs
    cases s with
    | nil => simp [replaceAllF, splitOnF, intercalateL]
    | cons c rest =>
      simp only [List.length_cons, Nat.add_le_add_iff_right] at hs
      unfold replaceAllF splitOnF
      by_cases h : old ≠ [] ∧ old <+: c :: rest
      · rw [if_pos h, if_pos h]
        have hrec : (rest.drop (old.length - 1)).length ≤ fuel := by
          rw [List.length_drop]
          omega
        rw [ih _ hrec]
        cases hL : splitOnF old fuel (rest.drop (old.length - 1)) with
        | nil => exact absurd hL (splitOnF_ne_nil old fuel _)
        | cons x xs => simp [intercalateL]
      · rw [if_neg h, if_neg h]
        rw [ih rest hs]
        cases hL : splitOnF old fuel rest with
        | nil => exact absurd hL (splitOnF_ne_nil old fuel rest)
        | cons x xs =>
          cases xs with
          | nil => simp [consHead, intercalateL]
          | cons y ys => simp [consHead, intercalateL]

theorem countOccF_length (old : List Char) (_hold : old ≠ []) :
    ∀ fuel s, s.length ≤ fuel → countOccF old fuel s + 1 = (splitOnF old fuel s).length := by
  intro fuel
  induction fuel with
  | zero =>
    intro s hs
    have hz : s = [] := List.length_eq_zero.mp (Nat.le_zero.mp hs)
    subst hz
    simp [countOccF, splitOnF]
  | succ fuel ih =>
    intro s hs
    cases s with
    | nil => simp [countOccF, splitOnF]
    | cons c rest =>
      simp only [List.length_cons, Nat.add_le_add_iff_right] at hs
      unfold countOccF splitOnF
      by_cases h : old ≠ [] ∧ old <+: c :: rest
      · rw [if_pos h, if_pos h]
        have hrec : (rest.drop (old.length - 1)).length ≤ fuel := by
          rw [List.length_drop]
          omega
        have hI := ih _ hrec
        simp only [List.length_cons]
        omega
      · rw [if_neg h, if_neg h]
        have hI := ih rest hs
        cases hL : splitOnF old fuel rest with
        | nil => exact absurd hL (splitOnF_ne_nil old fuel rest)
        | cons x xs =>
          rw [hL] at hI
          simp only [consHead, List.length_cons]
          simp only [List.length_cons] at hI
          omega

theorem splitOnF_no_occurrence (old : List Char) (hold : old ≠ []) :
    ∀ fuel s, s.length ≤ fuel → ∀ seg ∈ splitOnF old fuel s, ¬ old <:+: seg := by
  intro fuel
  induction fuel with
  | zero =>
    intro s hs seg hseg hinf
    have hz : s = [] := List.length_eq_zero.mp (Nat.le_zero.mp hs)
    subst hz
    simp [splitOnF] at hseg
    subst hseg
    exact hold (List.sublist_nil.mp hinf.sublist)
  | succ fuel ih =>
    intro s hs seg hseg hinf
    cases s with
    | nil =>
      simp [splitOnF] at hseg
      subst hseg
      exact hold (List.sublist_nil.mp hinf.sublist)
    | cons c rest =>
      simp only [List.length_cons, Nat.add_le_add_iff_right] at hs
      unfold splitOnF at hseg
      by_cases h : old ≠ [] ∧ old <+: c :: rest
      · rw [if_pos h] at hseg
        rcases List.mem_cons.mp hseg with hseg | hseg
        · subst hseg
          exact hold (List.sublist_nil.mp hinf.sublist)
        · have hrec : (rest.drop (old.length - 1)).length ≤ fuel := by
            rw [List.length_drop]
            omega
          exact ih _ hrec seg hseg hinf
      · rw [if_neg h] at hseg
        have hnp : ¬ old <+: c :: rest := fun hp => h ⟨hold, hp⟩
        cases hL : splitOnF old fuel rest with
        | nil => exact absurd hL (splitOnF_ne_nil old fuel rest)
        | cons x xs =>
          rw [hL] at hseg
          simp only [consHead] at hseg
          rcases List.mem_cons.mp hseg with hseg | hseg
          · subst hseg
            rcases List.infix_cons_iff.mp hinf with hpre | hinf2
            · apply hnp
              have hr := splitOnF_reconstruct old hold fuel rest hs
              rw [hL] at hr
              have hxr : x <+: rest := by
                cases xs with
                | nil =>
                  simp only [intercalateL] at hr
                  rw [hr]
                | cons y ys =>
                  simp only [intercalateL] at hr
                  exact ⟨old ++ intercalateL old (y :: ys), by
                    rw [← List.append_assoc, hr]⟩
              have hcx : c :: x <+: c :: rest := by
                obtain ⟨t, ht⟩ := hxr
                exact ⟨t, by rw [List.cons_append, ht]⟩
              exact hpre.trans hcx
            · exact ih rest hs x (by rw [hL]; exact List.mem_cons_self x xs) hinf2
          · exact ih rest hs seg (by rw [hL]; exact List.mem_cons_of_mem x hseg) hinf

theorem replaceFirstL_spec (old new : List Char) (hold : old ≠ []) :
    ∀ s, old <:+: s →
      ∃ b a, s = b ++ old ++ a ∧ replaceFirstL old new s = b ++ new ++ a
        ∧ ∀ b2 a2, s = b2 ++ old ++ a2 → b.length ≤ b2.length := by
  intro s
  induction s with
  | nil =>
    intro h
    exact absurd (List.sublist_nil.mp h.sublist) hold
  | cons c rest ih =>
    intro h
    by_cases hp : old <+: c :: rest
    · refine ⟨[], rest.drop (old.length - 1), ?_, ?_, ?_⟩
      · simpa using prefix_decomp old hold c rest hp
      · unfold replaceFirstL
        rw [if_pos ⟨hold, hp⟩]
        simp
      · intro b2 a2 _
        simp
    · have h2 : old <:+: rest := (List.infix_cons_iff.mp h).resolve_left hp
      obtain ⟨b, a, hba, hrw, hmin⟩ := ih h2
      refine ⟨c :: b, a, ?_, ?_, ?_⟩
      · rw [List.cons_append, List.cons_append, ← hba]
      · unfold replaceFirstL
        rw [if_neg (fun hh => hp hh.2), hrw]
        simp
      · intro b2 a2 heq
        cases b2 with
        | nil =>
          exact absurd ⟨a2, by simpa using heq.symm⟩ hp
        | cons d b2' =>
          have heq2 : c = d ∧ rest = b2' ++ old ++ a2 := by simpa using heq
          simp only [List.length_cons]
          exact Nat.succ_le_succ (hmin b2' a2 heq2.2)

theorem find_writeBack (p : List String) (c : String) :
    ∀ l : List (List String × String),
      ((l.find? (fun e => e.1 == p)).isSome = true) →
      ((l.map (fun e => if e.1 == p then (p, c) else e)).find? (fun e => e.1 == p))
        = some (p, c) := by
  intro l
  induction l with
  | nil => intro h; simp [List.find?] at h
  | cons e rest ih =>
    intro h
    by_cases he : (e.1 == p) = true
    · simp only [List.map_cons, if_pos he]
      rw [List.find?_cons_of_pos _ (by simp)]
    · simp only [List.map_cons, if_neg he]
      rw [List.find?_cons_of_neg _ (by simpa using he)]
      rw [List.find?_cons_of_neg _ (by simpa using he)] at h
      exact ih h

theorem lookupFile_writeBack (fs : FS) (p : List String) (c : String)
    (h : (lookupFile fs p).isSome = true) :
    lookupFile (writeBack fs p c) p = some c := by
  unfold lookupFile writeBack
  unfold lookupFile at h
  cases hf : fs.files.find? (fun e => e.1 == p) with
  | none =>
    rw [hf] at h
    simp at h
  | some v =>
    rw [find_writeBack p c fs.files (by rw [hf]; rfl)]
    rfl

/-- One-step unfolding of edit once the file content is known. -/
theorem edit_of_lookup (fs : FS) (cwd : List String)
    (file_path old_string new_string content : String) (replace_all : Bool)
    (hfile : lookupFile fs (Server.resolve_path cwd file_path) = some content) :
    Server.edit fs cwd file_path old_string new_string replace_all
      = if old_string.data <:+: content.data then
          if replace_all then
            ({ error := none, path := some file_path,
               occurrences := some (countOccL old_string.data content.data) },
             writeBack fs (Server.resolve_path cwd file_path)
               (String.mk (replaceAllL old_string.data new_string.data content.data)))
          else
            ({ error := none, path := some file_path, occurrences := some 1 },
             writeBack fs (Server.resolve_path cwd file_path)
               (String.mk (replaceFirstL old_string.data new_string.data content.data)))
        else
          ({ error := some ("String '" ++ String.mk (old_string.data.take 50)
                ++ "...' not found in file"),
             path := none, occurrences := none }, fs) := by
  simp only [Server.edit]
  rw [hfile]

/-- C3 (amended): on an existing file whose content contains the (nonempty)
search string: with replace-all, edit reports as occurrences the number of
leftmost non-overlapping occurrences of the search string in the content, and
replaces all of them — the stored content becomes the occurrence-free chunks
of the original joined by the replacement string, so no occurrence of the
search string survives inside any chunk, although a fresh occurrence may span
a replacement boundary (see the counterexample); without replace-all, edit
reports exactly one occurrence whatever the actual number, and rewrites
precisely the leftmost occurrence, leaving everything else unchanged.
Replacement is literal substring replacement throughout, never regex. -/
theorem c3_edit_replacement (fs : FS) (cwd : List String)
    (fp old_string new_string content : String)
    (hfile : lookupFile fs (Server.resolve_path cwd fp) = some content)
    (hold : old_string.data ≠ [])
    (hocc : old_string.data <:+: content.data) :
    ((Server.edit fs cwd fp old_string new_string true).1.occurrences
        = some (countOccL old_string.data content.data)
      ∧ countOccL old_string.data content.data + 1
          = (splitOnL old_string.data content.data).length
      ∧ intercalateL old_string.data (splitOnL old_string.data content.data) = content.data
      ∧ lookupFile (Server.edit fs cwd fp old_string new_string true).2
            (Server.resolve_path cwd fp)
          = some (String.mk
              (intercalateL new_string.data (splitOnL old_string.data content.data)))
      ∧ ∀ seg ∈ splitOnL old_string.data content.data, ¬ old_string.data <:+: seg)
    ∧ ((Server.edit fs cwd fp old_string new_string false).1.occurrences = some 1
      ∧ ∃ b a, content.data = b ++ old_string.data ++ a
          ∧ lookupFile (Server.edit fs cwd fp old_string new_string false).2
                (Server.resolve_path cwd fp)
              = some (String.mk (b ++ new_string.data ++ a))
          ∧ ∀ b2 a2, content.data = b2 ++ old_string.data ++ a2 → b.length ≤ b2.length) := by
  have hT := edit_of_lookup fs cwd fp old_string new_string content true hfile
  have hF := edit_of_lookup fs cwd fp old_string new_string content false hfile
  rw [if_pos hocc] at hT hF
  rw [if_pos rfl] at hT
  rw [if_neg (by simp)] at hF
  constructor
  · refine ⟨by rw [hT], countOccF_length _ hold _ _ (le_refl _),
      splitOnF_reconstruct _ hold _ _ (le_refl _), ?_,
      splitOnF_no_occurrence _ hold _ _ (le_refl _)⟩
    rw [hT]
    have hsome : (lookupFile fs (Server.resolve_path cwd fp)).isSome = true := by
      rw [hfile]
      rfl
    rw [lookupFile_writeBack fs _ _ hsome]
    exact congrArg (fun l => some (String.mk l))
      (replaceAllF_intercalate _ _ hold _ _ (le_refl _))
  · obtain ⟨b, a, hba, hrw, hmin⟩ := replaceFirstL_spec old_string.data new_string.data hold
      content.data hocc
    refine ⟨by rw [hF], b, a, hba, ?_, hmin⟩
    rw [hF]
    have hsome : (lookupFile fs (Server.resolve_path cwd fp)).isSome = true := by
      rw [hfile]
      rfl
    rw [lookupFile_writeBack fs _ _ hsome]
    rw [hrw]

/-- Witness for C3: two occurrences replaced and counted with replace-all;
only the leftmost and a reported count of one without it. -/
theorem c3_witness :
    (Server.edit ⟨[(["data", "f.txt"], "aXbXc")], [[], ["data"]]⟩ ["data"] "f.txt" "X" "YY"
        true).1.occurrences = some 2
    ∧ lookupFile (Server.edit ⟨[(["data", "f.txt"], "aXbXc")], [[], ["data"]]⟩ ["data"]
        "f.txt" "X" "YY" true).2 (Server.resolve_path ["data"] "f.txt") = some "aYYbYYc"
    ∧ (Server.edit ⟨[(["data", "f.txt"], "aXbXc")], [[], ["data"]]⟩ ["data"] "f.txt" "X" "YY"
        false).1.occurrences = some 1
    ∧ ∃ b a, ("aXbXc" : String).data = b ++ ("X" : String).data ++ a
        ∧ lookupFile (Server.edit ⟨[(["data", "f.txt"], "aXbXc")], [[], ["data"]]⟩ ["data"]
              "f.txt" "X" "YY" false).2 (Server.resolve_path ["data"] "f.txt")
            = some (String.mk (b ++ ("YY" : String).data ++ a))
        ∧ ∀ b2 a2, ("aXbXc" : String).data = b2 ++ ("X" : String).data ++ a2
            → b.length ≤ b2.length := by
  have h := c3_edit_replacement ⟨[(["data", "f.txt"], "aXbXc")], [[], ["data"]]⟩ ["data"]
    "f.txt" "X" "YY" "aXbXc" (by decide) (by decide) (by decide)
  exact ⟨h.1.1.trans (by decide), h.1.2.2.2.1.trans (by decide), h.2.1, h.2.2⟩

/-- Counterexample to C3 as stated: in the content abb the search string ab
occurs once; replace-all with replacement a reports one occurrence, yet the
resulting content ab still contains the search string, although ab is not a
substring of the replacement a. -/
theorem c3_counterexample :
    (Server.edit ⟨[(["data", "f.txt"], "abb")], [[], ["data"]]⟩ ["data"] "f.txt" "ab" "a"
        true).1.occurrences = some 1
    ∧ lookupFile (Server.edit ⟨[(["data", "f.txt"], "abb")], [[], ["data"]]⟩ ["data"]
        "f.txt" "ab" "a" true).2 (Server.resolve_path ["data"] "f.txt") = some "ab"
    ∧ ("ab" : String).data <:+: ("ab" : String).data
    ∧ ¬ ("ab" : String).data <:+: ("a" : String).data := by
  refine ⟨by decide, by decide, by decide, by decide⟩
